import Mathlib

/-!
Verification of the `long-running-task` registry (`src/lib.rs`).

The registry (`TaskPool`) tracks long-running tasks: a `pending` map from
identifiers to progress values and a `completed` map from identifiers to
pairs of a completion timestamp and a result, together with an optional
`lifespan` for lazy expiry of completed entries.

Embedding choices, all taken from the source:
* `Uuid` is modelled as `Nat`.  The source calls `Uuid::new_v4()` (a
  128-bit random value) and treats collisions as operationally impossible,
  so the generator is modelled as a supply of fresh naturals: the field
  `nextId` of `TaskPool` holds the next identifier to be handed out and is
  bumped by `insert`.
* `std::time::Instant` and `Duration` are modelled as `Nat`.
  `Instant::now()` reads the ambient clock, so operations that call it
  receive the current time as an explicit argument.
  `Instant::duration_since` saturates at zero, exactly like `Nat`
  subtraction.
* `HashMap` is modelled as an association list with the usual
  lookup/insert/remove/retain operations; `insert` overwrites an existing
  binding, `remove` on an absent key is a no-op, matching `std`.
* The `unreachable!` branch of `TaskPool::progress` is modelled by an
  `Option` result: `none` is the abort.
-/

namespace LongRunningTask

/-- Identifier type modelling `uuid::Uuid` (collision-free by assumption). -/
abbrev Uuid := Nat

/-- Association-list lookup, modelling `HashMap::get`. -/
def mapLookup {α : Type} (k : Uuid) : List (Uuid × α) → Option α
  | [] => none
  | (k', v) :: rest => if k' = k then some v else mapLookup k rest

/-- Association-list removal of a key, modelling `HashMap::remove`
(dropping every binding of `k`; a no-op when `k` is absent). -/
def mapErase {α : Type} (k : Uuid) : List (Uuid × α) → List (Uuid × α)
  | [] => []
  | e :: rest => if e.1 = k then mapErase k rest else e :: mapErase k rest

/-- Association-list insertion, modelling `HashMap::insert`
(overwrites any existing binding of `k`). -/
def mapInsert {α : Type} (k : Uuid) (v : α) (m : List (Uuid × α)) : List (Uuid × α) :=
  (k, v) :: mapErase k m

/-- Trait `Progressible`: the single capability to advance a progress
value by one step.  The Rust method mutates in place; here it returns the
advanced value. -/
class Progressible (P : Type) where
  progress : P → P

/-- Enum `TaskState`: a pending task carries its current progress, a done
task carries the final result. -/
inductive TaskState (V P : Type) where
  | Pending : P → TaskState V P
  | Done : V → TaskState V P
deriving DecidableEq, Repr

/-- Struct `TaskPool`: the registry.  `nextId` models the ambient
collision-free UUID generator (see the module docstring); the three other
fields are the struct's fields. -/
structure TaskPool (V P : Type) where
  pending : List (Uuid × P)
  completed : List (Uuid × (Nat × V))
  lifespan : Option Nat
  nextId : Nat
deriving DecidableEq, Repr

/-- Impl `Default for TaskPool`: empty maps and no lifespan. -/
def defaultPool (V P : Type) : TaskPool V P :=
  { pending := [], completed := [], lifespan := none, nextId := 0 }

/-- Struct `Handle`: a unique handle to a single task, wrapping its Uuid. -/
structure Handle where
  uuid : Uuid
deriving DecidableEq, Repr

/-- Method `TaskPool::with_lifespan`: configure the lifespan of tasks. -/
def TaskPool.with_lifespan {V P : Type} (pool : TaskPool V P) (lifespan : Option Nat) :
    TaskPool V P :=
  { pool with lifespan := lifespan }

/-- Method `TaskPool::insert`: mint a fresh uuid, store the initial
progress under it in `pending`, return the handle and the uuid. -/
def TaskPool.insert {V P : Type} (pool : TaskPool V P) (pending : P) :
    (Handle × Uuid) × TaskPool V P :=
  let uuid := pool.nextId
  ((⟨uuid⟩, uuid),
    { pool with pending := mapInsert uuid pending pool.pending, nextId := pool.nextId + 1 })

/-- Method `TaskPool::retrieve`: a pending task is reported with a clone
of its progress and left in place; a completed task is removed and its
result returned; otherwise `none`. -/
def TaskPool.retrieve {V P : Type} (pool : TaskPool V P) (uuid : Uuid) :
    Option (TaskState V P) × TaskPool V P :=
  match mapLookup uuid pool.pending with
  | some p => (some (TaskState.Pending p), pool)
  | none =>
    match mapLookup uuid pool.completed with
    | some f => (some (TaskState.Done f.2), { pool with completed := mapErase uuid pool.completed })
    | none => (none, pool)

/-- Method `TaskPool::progress`: advance the progress of the pending task
referenced by the handle in place.  The source's `unreachable!` branch
(handle refers to no pending task) is modelled by `none`. -/
def TaskPool.progress {V P : Type} [Progressible P] (pool : TaskPool V P) (handle : Handle) :
    Option (TaskPool V P) :=
  match mapLookup handle.uuid pool.pending with
  | some p =>
    some { pool with pending := mapInsert handle.uuid (Progressible.progress p) pool.pending }
  | none => none

/-- Method `TaskPool::purge_expired_tasks`: with a configured lifespan,
retain exactly the completed entries strictly younger than the lifespan
(`now.duration_since(inserted_at) < lifespan`); without one, do nothing. -/
def TaskPool.purge_expired_tasks {V P : Type} (pool : TaskPool V P) (now : Nat) :
    TaskPool V P :=
  match pool.lifespan with
  | some lifespan =>
    { pool with completed := pool.completed.filter (fun e => decide (now - e.2.1 < lifespan)) }
  | none => pool

/-- Method `TaskPool::complete`: remove the handle's entry from `pending`,
purge expired tasks, then insert the timestamped result into `completed`.
The two `Instant::now()` calls (inside the purge, and for the inserted
timestamp) are the arguments `now₁` and `now₂`. -/
def TaskPool.complete {V P : Type} (pool : TaskPool V P) (handle : Handle) (value : V)
    (now₁ now₂ : Nat) : TaskPool V P :=
  let pool₁ := { pool with pending := mapErase handle.uuid pool.pending }
  let pool₂ := pool₁.purge_expired_tasks now₁
  { pool₂ with completed := mapInsert handle.uuid (now₂, value) pool₂.completed }

/-- Spec-worded restatement of `complete`, for the step-order claim:
first remove the entry from `pending`, then run the purge policy, then
insert `(now, result)` into `completed`. -/
def completeSpec {V P : Type} (pool : TaskPool V P) (handle : Handle) (value : V)
    (now₁ now₂ : Nat) : TaskPool V P :=
  let afterRemove : TaskPool V P := { pool with pending := mapErase handle.uuid pool.pending }
  let afterPurge : TaskPool V P := afterRemove.purge_expired_tasks now₁
  { afterPurge with completed := mapInsert handle.uuid (now₂, value) afterPurge.completed }

/-- Iterated `TaskPool::progress`: `n` successive advance calls through
the same handle, aborting (like the source's `unreachable!`) as soon as
one call aborts. -/
def TaskPool.progressN {V P : Type} [Progressible P] (pool : TaskPool V P) (handle : Handle) :
    Nat → Option (TaskPool V P)
  | 0 => some pool
  | n + 1 => (pool.progress handle).bind (fun pool' => pool'.progressN handle n)

/-- Struct `Progress` from the source's test module: a step counter with a
cap. -/
structure Progress where
  progress : Nat
  total : Nat
deriving DecidableEq, Repr

/-- Impl `Progressible for Progress` from the source's test module:
advance by one, capped at `total`. -/
instance : Progressible Progress where
  progress p := { p with progress := min (p.progress + 1) p.total }

/-- Operation steps of the registry, as a reachability relation.  The
parameter `ok` restricts which identifiers may be passed to `retrieve`
(instantiated with the full predicate for plain reachability).  The side
conditions on `stepProgress` and `stepComplete` encode the ownership
discipline of `Handle`: a handle is produced only by `insert` and consumed
only by `complete`, so whenever either method is called the referenced
task is still pending. -/
inductive ReachableG {V P : Type} [Progressible P] (ok : Uuid → Prop) :
    TaskPool V P → TaskPool V P → Prop where
  | refl (pool : TaskPool V P) : ReachableG ok pool pool
  | stepInsert (pool pool' : TaskPool V P) (p : P) :
      ReachableG ok pool pool' → ReachableG ok pool (pool'.insert p).2
  | stepProgress (pool pool' pool'' : TaskPool V P) (h : Handle) :
      ReachableG ok pool pool' → pool'.progress h = some pool'' →
      ReachableG ok pool pool''
  | stepComplete (pool pool' : TaskPool V P) (h : Handle) (v : V) (n₁ n₂ : Nat) :
      ReachableG ok pool pool' → mapLookup h.uuid pool'.pending ≠ none →
      ReachableG ok pool (pool'.complete h v n₁ n₂)
  | stepRetrieve (pool pool' : TaskPool V P) (u : Uuid) :
      ReachableG ok pool pool' → ok u → ReachableG ok pool (pool'.retrieve u).2

/-- Reachability from the empty registry by any operation sequence. -/
abbrev Reachable {V P : Type} [Progressible P] (pool : TaskPool V P) : Prop :=
  ReachableG (fun _ => True) (defaultPool V P) pool

/-- Every key of the map is strictly below `n`. -/
abbrev keysBelow {α : Type} (n : Nat) (m : List (Uuid × α)) : Prop :=
  ∀ e ∈ m, e.1 < n

/-- Registry invariant: every key of either map is below the fresh-id
counter, and no pending key also occurs in `completed`. -/
abbrev Inv {V P : Type} (pool : TaskPool V P) : Prop :=
  keysBelow pool.nextId pool.pending ∧ keysBelow pool.nextId pool.completed ∧
    ∀ e ∈ pool.pending, mapLookup e.1 pool.completed = none

/-- An identifier is present in the registry: bound in `pending` or in
`completed`. -/
abbrev presentId {V P : Type} (id : Uuid) (pool : TaskPool V P) : Prop :=
  mapLookup id pool.pending ≠ none ∨ mapLookup id pool.completed ≠ none

section MapLemmas

variable {α : Type}

theorem mapLookup_mapInsert_self (k : Uuid) (v : α) (m : List (Uuid × α)) :
    mapLookup k (mapInsert k v m) = some v := by
  simp [mapInsert, mapLookup]

theorem mapLookup_mapErase_ne {k' k : Uuid} (h : k' ≠ k) (m : List (Uuid × α)) :
    mapLookup k' (mapErase k m) = mapLookup k' m := by
  induction m with
  | nil => rfl
  | cons e rest ih =>
    by_cases he : e.1 = k
    · have hne : ¬ e.1 = k' := fun hk => h (hk.symm.trans he)
      simp [mapErase, mapLookup, he, hne, ih, Ne.symm h]
    · by_cases hk' : e.1 = k'
      · simp [mapErase, mapLookup, he, hk', h]
      · simp [mapErase, mapLookup, he, hk', ih]

theorem mapLookup_mapInsert_ne {k' k : Uuid} (h : k' ≠ k) (v : α) (m : List (Uuid × α)) :
    mapLookup k' (mapInsert k v m) = mapLookup k' m := by
  have hk : ¬ k = k' := fun hk => h hk.symm
  rw [mapInsert]
  simp only [mapLookup]
  rw [if_neg hk]
  exact mapLookup_mapErase_ne h m

theorem mapLookup_mapErase_self (k : Uuid) (m : List (Uuid × α)) :
    mapLookup k (mapErase k m) = none := by
  induction m with
  | nil => rfl
  | cons e rest ih =>
    by_cases he : e.1 = k
    · simpa [mapErase, he] using ih
    · simpa [mapErase, mapLookup, he] using ih

theorem mapLookup_none_iff {k : Uuid} {m : List (Uuid × α)} :
    mapLookup k m = none ↔ ∀ e ∈ m, e.1 ≠ k := by
  induction m with
  | nil => simp [mapLookup]
  | cons e rest ih =>
    by_cases he : e.1 = k
    · simp [mapLookup, he]
    · simp [mapLookup, he, ih]

theorem mapLookup_some_mem {k : Uuid} {m : List (Uuid × α)} {v : α}
    (h : mapLookup k m = some v) : (k, v) ∈ m := by
  induction m with
  | nil => simp [mapLookup] at h
  | cons e rest ih =>
    by_cases he : e.1 = k
    · simp only [mapLookup, he, if_true, Option.some.injEq] at h
      have hx : e = (k, v) := Prod.ext he h
      rw [← hx]
      exact List.mem_cons_self _ _
    · simp only [mapLookup, he, if_false] at h
      exact List.mem_cons_of_mem _ (ih h)

theorem mapLookup_filter_none {k : Uuid} {m : List (Uuid × α)} (p : Uuid × α → Bool)
    (h : mapLookup k m = none) : mapLookup k (m.filter p) = none := by
  rw [mapLookup_none_iff] at h ⊢
  exact fun e he => h e (List.mem_of_mem_filter he)

theorem mapLookup_filter_some {k : Uuid} {m : List (Uuid × α)} {x : α} {p : Uuid × α → Bool}
    (h : mapLookup k m = some x) (hp : p (k, x) = true) :
    mapLookup k (m.filter p) = some x := by
  induction m with
  | nil => simp [mapLookup] at h
  | cons e rest ih =>
    by_cases he : e.1 = k
    · simp only [mapLookup, he, if_true, Option.some.injEq] at h
      have hex : e = (k, x) := Prod.ext he h
      rw [List.filter_cons, hex, hp]
      simp [mapLookup]
    · simp only [mapLookup, he, if_false] at h
      rw [List.filter_cons]
      by_cases hpe : p e = true
      · simp [hpe, mapLookup, he, ih h]
      · simp [hpe, ih h]

theorem mem_mapErase {k : Uuid} {m : List (Uuid × α)} {x : Uuid × α} :
    x ∈ mapErase k m ↔ x ∈ m ∧ x.1 ≠ k := by
  induction m with
  | nil => simp [mapErase]
  | cons e rest ih =>
    by_cases he : e.1 = k
    · rw [mapErase, if_pos he, ih]
      constructor
      · exact fun hx => ⟨List.mem_cons_of_mem _ hx.1, hx.2⟩
      · rintro ⟨hx, hxk⟩
        rcases List.mem_cons.1 hx with hxe | hxr
        · exact absurd (show x.1 = k by rw [hxe]; exact he) hxk
        · exact ⟨hxr, hxk⟩
    · rw [mapErase, if_neg he]
      constructor
      · intro hx
        rcases List.mem_cons.1 hx with hxe | hxr
        · refine ⟨by rw [hxe]; exact List.mem_cons_self _ _, by rw [hxe]; exact he⟩
        · obtain ⟨h1, h2⟩ := ih.1 hxr
          exact ⟨List.mem_cons_of_mem _ h1, h2⟩
      · rintro ⟨hx, hxk⟩
        rcases List.mem_cons.1 hx with hxe | hxr
        · rw [hxe]
          exact List.mem_cons_self _ _
        · exact List.mem_cons_of_mem _ (ih.2 ⟨hxr, hxk⟩)

theorem mapErase_eq_self {k : Uuid} {m : List (Uuid × α)} (h : mapLookup k m = none) :
    mapErase k m = m := by
  induction m with
  | nil => rfl
  | cons e rest ih =>
    have he : ¬ e.1 = k := by
      intro hek
      simp [mapLookup, hek] at h
    have hr : mapLookup k rest = none := by
      simpa [mapLookup, he] using h
    rw [mapErase, if_neg he, ih hr]

end MapLemmas

section PoolLemmas

variable {V P : Type}

theorem purge_pending (pool : TaskPool V P) (now : Nat) :
    (pool.purge_expired_tasks now).pending = pool.pending := by
  unfold TaskPool.purge_expired_tasks
  split <;> rfl

theorem purge_lifespan (pool : TaskPool V P) (now : Nat) :
    (pool.purge_expired_tasks now).lifespan = pool.lifespan := by
  unfold TaskPool.purge_expired_tasks
  split <;> rfl

theorem purge_nextId (pool : TaskPool V P) (now : Nat) :
    (pool.purge_expired_tasks now).nextId = pool.nextId := by
  unfold TaskPool.purge_expired_tasks
  split <;> rfl

theorem complete_pending (pool : TaskPool V P) (h : Handle) (v : V) (now₁ now₂ : Nat) :
    (pool.complete h v now₁ now₂).pending = mapErase h.uuid pool.pending := by
  unfold TaskPool.complete
  rw [purge_pending]

theorem complete_completed (pool : TaskPool V P) (h : Handle) (v : V) (now₁ now₂ : Nat) :
    (pool.complete h v now₁ now₂).completed =
      mapInsert h.uuid (now₂, v)
        (({ pool with pending := mapErase h.uuid pool.pending
            : TaskPool V P }).purge_expired_tasks now₁).completed := rfl

theorem complete_lifespan (pool : TaskPool V P) (h : Handle) (v : V) (now₁ now₂ : Nat) :
    (pool.complete h v now₁ now₂).lifespan = pool.lifespan := by
  unfold TaskPool.complete
  rw [purge_lifespan]

theorem complete_nextId (pool : TaskPool V P) (h : Handle) (v : V) (now₁ now₂ : Nat) :
    (pool.complete h v now₁ now₂).nextId = pool.nextId := by
  unfold TaskPool.complete
  rw [purge_nextId]

theorem purge_completed_none (pool : TaskPool V P) (now : Nat) {id : Uuid}
    (h : mapLookup id pool.completed = none) :
    mapLookup id (pool.purge_expired_tasks now).completed = none := by
  unfold TaskPool.purge_expired_tasks
  split
  · exact mapLookup_filter_none _ h
  · exact h

theorem complete_completed_lookup_self (pool : TaskPool V P) (h : Handle) (v : V)
    (now₁ now₂ : Nat) :
    mapLookup h.uuid (pool.complete h v now₁ now₂).completed = some (now₂, v) := by
  rw [complete_completed]
  exact mapLookup_mapInsert_self _ _ _

theorem purge_completed_of_none {pool : TaskPool V P} (hl : pool.lifespan = none) (now : Nat) :
    (pool.purge_expired_tasks now).completed = pool.completed := by
  unfold TaskPool.purge_expired_tasks
  split <;> simp_all

theorem purge_completed_of_some {pool : TaskPool V P} {L : Nat} (hl : pool.lifespan = some L)
    (now : Nat) :
    (pool.purge_expired_tasks now).completed =
      pool.completed.filter (fun e => decide (now - e.2.1 < L)) := by
  unfold TaskPool.purge_expired_tasks
  split <;> simp_all

theorem mem_purge_completed {pool : TaskPool V P} {now : Nat} {x : Uuid × (Nat × V)}
    (hx : x ∈ (pool.purge_expired_tasks now).completed) : x ∈ pool.completed := by
  revert hx
  unfold TaskPool.purge_expired_tasks
  split
  · exact fun hx => List.mem_of_mem_filter hx
  · exact id

theorem complete_completed_none {pool : TaskPool V P} {h : Handle} {id : Uuid}
    (hid : id ≠ h.uuid) (hnone : mapLookup id pool.completed = none) (v : V) (now₁ now₂ : Nat) :
    mapLookup id (pool.complete h v now₁ now₂).completed = none := by
  rw [complete_completed, mapLookup_mapInsert_ne hid]
  exact purge_completed_none _ _ hnone

theorem retrieve_spec (pool : TaskPool V P) (u : Uuid) :
    (pool.retrieve u).2 = pool ∨
      (pool.retrieve u).2 = { pool with completed := mapErase u pool.completed } := by
  unfold TaskPool.retrieve
  split
  · exact Or.inl rfl
  · split
    · exact Or.inr rfl
    · exact Or.inl rfl

theorem insert_snd (pool : TaskPool V P) (p : P) :
    (pool.insert p).2 =
      { pool with pending := mapInsert pool.nextId p pool.pending,
                  nextId := pool.nextId + 1 } := rfl

theorem insert_ids (pool : TaskPool V P) (p : P) :
    (pool.insert p).1.1.uuid = pool.nextId ∧ (pool.insert p).1.2 = pool.nextId := ⟨rfl, rfl⟩

theorem progress_spec [Progressible P] {pool pool' : TaskPool V P} {h : Handle}
    (hp : pool.progress h = some pool') :
    ∃ p₀, mapLookup h.uuid pool.pending = some p₀ ∧
      pool' = { pool with
                  pending := mapInsert h.uuid (Progressible.progress p₀) pool.pending } := by
  unfold TaskPool.progress at hp
  cases hlk : mapLookup h.uuid pool.pending with
  | none =>
    rw [hlk] at hp
    exact absurd hp (by simp)
  | some p₀ =>
    rw [hlk] at hp
    exact ⟨p₀, rfl, (Option.some_inj.mp hp).symm⟩

theorem retrieve_nextId (pool : TaskPool V P) (u : Uuid) :
    (pool.retrieve u).2.nextId = pool.nextId := by
  rcases retrieve_spec pool u with hsp | hsp <;> rw [hsp]

theorem retrieve_of_pending {pool : TaskPool V P} {u : Uuid} {p : P}
    (hu : mapLookup u pool.pending = some p) :
    pool.retrieve u = (some (TaskState.Pending p), pool) := by
  unfold TaskPool.retrieve
  rw [hu]

theorem retrieve_of_completed {pool : TaskPool V P} {u : Uuid} {f : Nat × V}
    (hu : mapLookup u pool.pending = none) (hc : mapLookup u pool.completed = some f) :
    pool.retrieve u =
      (some (TaskState.Done f.2), { pool with completed := mapErase u pool.completed }) := by
  unfold TaskPool.retrieve
  rw [hu, hc]

theorem retrieve_of_absent {pool : TaskPool V P} {u : Uuid}
    (hu : mapLookup u pool.pending = none) (hc : mapLookup u pool.completed = none) :
    pool.retrieve u = (none, pool) := by
  unfold TaskPool.retrieve
  rw [hu, hc]

end PoolLemmas

section InvariantLemmas

variable {V P : Type}

theorem keysBelow_mono {α : Type} {n n' : Nat} {m : List (Uuid × α)}
    (h : keysBelow n m) (hnn : n ≤ n') : keysBelow n' m :=
  fun e he => lt_of_lt_of_le (h e he) hnn

theorem inv_default : Inv (defaultPool V P) := by
  refine ⟨?_, ?_, ?_⟩ <;> intro e he <;> simp [defaultPool] at he

theorem inv_insert {pool : TaskPool V P} (hinv : Inv pool) (p : P) :
    Inv (pool.insert p).2 := by
  obtain ⟨h1, h2, h3⟩ := hinv
  rw [insert_snd]
  refine ⟨?_, keysBelow_mono h2 (Nat.le_succ _), ?_⟩
  · intro e he
    rcases List.mem_cons.1 he with hee | hee
    · rw [hee]
      exact Nat.lt_succ_self _
    · exact Nat.lt_succ_of_lt (h1 e (mem_mapErase.1 hee).1)
  · intro e he
    rcases List.mem_cons.1 he with hee | hee
    · rw [hee]
      exact mapLookup_none_iff.2 fun c hc => Nat.ne_of_lt (h2 c hc)
    · exact h3 e (mem_mapErase.1 hee).1

theorem inv_progress [Progressible P] {pool pool' : TaskPool V P} {h : Handle}
    (hinv : Inv pool) (hp : pool.progress h = some pool') : Inv pool' := by
  obtain ⟨p₀, hlk, rfl⟩ := progress_spec hp
  obtain ⟨h1, h2, h3⟩ := hinv
  have hu : h.uuid < pool.nextId := h1 _ (mapLookup_some_mem hlk)
  refine ⟨?_, h2, ?_⟩
  · intro e he
    rcases List.mem_cons.1 he with hee | hee
    · rw [hee]
      exact hu
    · exact h1 e (mem_mapErase.1 hee).1
  · intro e he
    rcases List.mem_cons.1 he with hee | hee
    · rw [hee]
      exact h3 (h.uuid, p₀) (mapLookup_some_mem hlk)
    · exact h3 e (mem_mapErase.1 hee).1

theorem inv_retrieve {pool : TaskPool V P} (hinv : Inv pool) (u : Uuid) :
    Inv (pool.retrieve u).2 := by
  obtain ⟨h1, h2, h3⟩ := hinv
  rcases retrieve_spec pool u with hsp | hsp <;> rw [hsp]
  · exact ⟨h1, h2, h3⟩
  · refine ⟨h1, fun e he => h2 e (mem_mapErase.1 he).1, ?_⟩
    intro e he
    by_cases heu : e.1 = u
    · rw [heu]
      exact mapLookup_mapErase_self _ _
    · rw [mapLookup_mapErase_ne heu]
      exact h3 e he

theorem inv_complete {pool : TaskPool V P} {h : Handle}
    (hinv : Inv pool) (hpend : mapLookup h.uuid pool.pending ≠ none)
    (v : V) (n₁ n₂ : Nat) : Inv (pool.complete h v n₁ n₂) := by
  obtain ⟨h1, h2, h3⟩ := hinv
  obtain ⟨p₀, hp₀⟩ := Option.ne_none_iff_exists'.mp hpend
  have hu : h.uuid < pool.nextId := h1 _ (mapLookup_some_mem hp₀)
  refine ⟨?_, ?_, ?_⟩
  · intro e he
    rw [complete_pending] at he
    rw [complete_nextId]
    exact h1 e (mem_mapErase.1 he).1
  · intro e he
    rw [complete_completed] at he
    rw [complete_nextId]
    rcases List.mem_cons.1 he with hee | hee
    · rw [hee]
      exact hu
    · have hq : e ∈ ({ pool with pending := mapErase h.uuid pool.pending
          : TaskPool V P }).completed :=
        mem_purge_completed (mem_mapErase.1 hee).1
      exact h2 e hq
  · intro e he
    rw [complete_pending] at he
    obtain ⟨hem, hene⟩ := mem_mapErase.1 he
    exact complete_completed_none hene (h3 e hem) v n₁ n₂

theorem inv_reachableG [Progressible P] {ok : Uuid → Prop} {pool pool' : TaskPool V P}
    (hinv : Inv pool) (hr : ReachableG ok pool pool') : Inv pool' := by
  induction hr with
  | refl => exact hinv
  | stepInsert q' p hs ih => exact inv_insert ih p
  | stepProgress q' q'' h hs hp ih => exact inv_progress ih hp
  | stepComplete q' h v n₁ n₂ hs hpend ih => exact inv_complete ih hpend v n₁ n₂
  | stepRetrieve q' u hs hok ih => exact inv_retrieve ih u

theorem inv_reachable [Progressible P] {pool : TaskPool V P} (hr : Reachable pool) :
    Inv pool :=
  inv_reachableG inv_default hr

theorem nextId_mono [Progressible P] {ok : Uuid → Prop} {pool pool' : TaskPool V P}
    (hr : ReachableG ok pool pool') : pool.nextId ≤ pool'.nextId := by
  induction hr with
  | refl => exact Nat.le_refl _
  | stepInsert q' p hs ih =>
    rw [insert_snd]
    exact Nat.le_trans ih (Nat.le_succ _)
  | stepProgress q' q'' h hs hp ih =>
    obtain ⟨p₀, hlk, rfl⟩ := progress_spec hp
    exact ih
  | stepComplete q' h v n₁ n₂ hs hpend ih =>
    rw [complete_nextId]
    exact ih
  | stepRetrieve q' u hs hok ih =>
    rw [retrieve_nextId]
    exact ih

end InvariantLemmas

section TraceLemmas

variable {V P : Type}

theorem progressN_lookup [Progressible P] (pool : TaskPool V P) (h : Handle) (p : P) (n : Nat)
    (hp : mapLookup h.uuid pool.pending = some p) :
    ∃ pool' : TaskPool V P, pool.progressN h n = some pool' ∧
      mapLookup h.uuid pool'.pending = some (Progressible.progress^[n] p) := by
  induction n generalizing pool p with
  | zero => exact ⟨pool, rfl, by simpa using hp⟩
  | succ n ih =>
    have hstep : pool.progress h =
        some { pool with pending := mapInsert h.uuid (Progressible.progress p) pool.pending } := by
      unfold TaskPool.progress
      rw [hp]
    obtain ⟨pool', hN, hlk⟩ :=
      ih { pool with pending := mapInsert h.uuid (Progressible.progress p) pool.pending }
        (Progressible.progress p) (mapLookup_mapInsert_self _ _ _)
    refine ⟨pool', ?_, ?_⟩
    · simp only [TaskPool.progressN, hstep, Option.bind_some]
      exact hN
    · rw [Function.iterate_succ_apply]
      exact hlk

theorem progress_iterate_caps (p : Progress) (n : Nat) (hle : p.progress ≤ p.total)
    (hn : p.total - p.progress ≤ n) :
    Progressible.progress^[n] p = (⟨p.total, p.total⟩ : Progress) := by
  induction n generalizing p with
  | zero =>
    have hpt : p.progress = p.total := by omega
    rw [Function.iterate_zero_apply]
    cases p with
    | mk pr tot => simp_all
  | succ n ih =>
    rw [Function.iterate_succ_apply]
    have hadv : Progressible.progress p =
        (⟨min (p.progress + 1) p.total, p.total⟩ : Progress) := rfl
    rw [hadv]
    have := ih ⟨min (p.progress + 1) p.total, p.total⟩ (by simp) (by simp; omega)
    simpa using this

theorem expiry_trace_preserves [Progressible P] {pool pool' : TaskPool V P} {id : Uuid}
    {t : Nat} {v : V} (hinv : Inv pool) (hl : pool.lifespan = none)
    (hc : mapLookup id pool.completed = some (t, v))
    (hr : ReachableG (fun u => u ≠ id) pool pool') :
    Inv pool' ∧ pool'.lifespan = none ∧ mapLookup id pool'.completed = some (t, v) := by
  induction hr with
  | refl => exact ⟨hinv, hl, hc⟩
  | stepInsert q' p hs ih =>
    obtain ⟨ih1, ih2, ih3⟩ := ih
    refine ⟨inv_insert ih1 p, ?_, ?_⟩
    · rw [insert_snd]
      exact ih2
    · rw [insert_snd]
      exact ih3
  | stepProgress q' q'' h hs hp ih =>
    obtain ⟨ih1, ih2, ih3⟩ := ih
    have hinv' := inv_progress ih1 hp
    obtain ⟨p₀, hlk, rfl⟩ := progress_spec hp
    exact ⟨hinv', ih2, ih3⟩
  | stepComplete q' h v' n₁ n₂ hs hpend ih =>
    obtain ⟨ih1, ih2, ih3⟩ := ih
    obtain ⟨p₀, hp₀⟩ := Option.ne_none_iff_exists'.mp hpend
    have hne : h.uuid ≠ id := by
      intro hh
      have hnone : mapLookup h.uuid q'.completed = none :=
        ih1.2.2 (h.uuid, p₀) (mapLookup_some_mem hp₀)
      rw [hh] at hnone
      rw [hnone] at ih3
      exact Option.noConfusion ih3
    refine ⟨inv_complete ih1 hpend v' n₁ n₂, ?_, ?_⟩
    · rw [complete_lifespan]
      exact ih2
    · have hpn : (({ q' with pending := mapErase h.uuid q'.pending }
            : TaskPool V P).purge_expired_tasks n₁).completed = q'.completed :=
        purge_completed_of_none
          (show ({ q' with pending := mapErase h.uuid q'.pending }
            : TaskPool V P).lifespan = none from ih2) n₁
      rw [complete_completed, mapLookup_mapInsert_ne fun hh => hne hh.symm, hpn]
      exact ih3
  | stepRetrieve q' u hs hok ih =>
    obtain ⟨ih1, ih2, ih3⟩ := ih
    refine ⟨inv_retrieve ih1 u, ?_⟩
    rcases retrieve_spec q' u with hsp | hsp <;> rw [hsp]
    · exact ⟨ih2, ih3⟩
    · refine ⟨ih2, ?_⟩
      rw [mapLookup_mapErase_ne fun hh => hok hh.symm]
      exact ih3

end TraceLemmas

section Claims

variable {V P : Type}

/-- C1: after `complete(h, r)` the first `retrieve` on the handle's
identifier returns `Done(r)` and removes the entry; with no intervening
re-insertion of the identifier, the subsequent `retrieve` returns none
("not found") and leaves the registry unchanged, so completed results are
delivered at most once. -/
theorem completed_result_delivered_at_most_once (pool : TaskPool V P) (h : Handle) (r : V)
    (now₁ now₂ : Nat) :
    ∃ pool' : TaskPool V P,
      (pool.complete h r now₁ now₂).retrieve h.uuid = (some (TaskState.Done r), pool') ∧
      pool'.retrieve h.uuid = (none, pool') := by
  set pool₁ := pool.complete h r now₁ now₂ with hpool₁
  have hpend : mapLookup h.uuid pool₁.pending = none := by
    rw [hpool₁, complete_pending]
    exact mapLookup_mapErase_self _ _
  have hcomp : mapLookup h.uuid pool₁.completed = some (now₂, r) :=
    complete_completed_lookup_self pool h r now₁ now₂
  refine ⟨{ pool₁ with completed := mapErase h.uuid pool₁.completed }, ?_, ?_⟩
  · unfold TaskPool.retrieve
    rw [hpend, hcomp]
  · unfold TaskPool.retrieve
    simp only [hpend, mapLookup_mapErase_self]

/-- C3: when the identifier is bound in `pending`, `retrieve` returns
`Pending` with a clone of the stored progress and leaves the registry
entirely unchanged, so polling is repeatable any number of times; a
successful intermediate `progress` call is reflected by the next
retrieval. -/
theorem pending_retrieve_frame [Progressible P] (pool : TaskPool V P) (h : Handle) (p : P)
    (hp : mapLookup h.uuid pool.pending = some p) :
    pool.retrieve h.uuid = (some (TaskState.Pending p), pool) ∧
      ∃ pool' : TaskPool V P, pool.progress h = some pool' ∧
        pool'.retrieve h.uuid = (some (TaskState.Pending (Progressible.progress p)), pool') := by
  have hprog : pool.progress h =
      some { pool with pending := mapInsert h.uuid (Progressible.progress p) pool.pending } := by
    unfold TaskPool.progress
    rw [hp]
  refine ⟨?_, _, hprog, ?_⟩
  · unfold TaskPool.retrieve
    rw [hp]
  · unfold TaskPool.retrieve
    rw [show mapLookup h.uuid
        ({ pool with pending := mapInsert h.uuid (Progressible.progress p) pool.pending
          : TaskPool V P }).pending = some (Progressible.progress p) from
      mapLookup_mapInsert_self _ _ _]

/-- Witness for C3 at a one-task registry holding progress 0 of 7. -/
theorem pending_retrieve_frame_witness :
    TaskPool.retrieve (V := Nat) ⟨[(0, ⟨0, 7⟩)], [], none, 1⟩ 0 =
        (some (TaskState.Pending (⟨0, 7⟩ : Progress)), ⟨[(0, ⟨0, 7⟩)], [], none, 1⟩) ∧
      ∃ pool' : TaskPool Nat Progress,
        TaskPool.progress ⟨[(0, ⟨0, 7⟩)], [], none, 1⟩ ⟨0⟩ = some pool' ∧
          pool'.retrieve 0 =
            (some (TaskState.Pending (Progressible.progress (⟨0, 7⟩ : Progress))), pool') :=
  pending_retrieve_frame (V := Nat) (P := Progress)
    ⟨[(0, ⟨0, 7⟩)], [], none, 1⟩ ⟨0⟩ ⟨0, 7⟩ (by decide)

/-- C4: with a configured lifespan the purge retains exactly the
completed entries whose age (now minus completion timestamp) is strictly
below the lifespan — removing every entry at least that old — and never
removes anything from the pending map. -/
theorem purge_removes_exactly_expired (pool : TaskPool V P) (L now : Nat)
    (hl : pool.lifespan = some L) :
    (∀ e : Uuid × (Nat × V),
        e ∈ (pool.purge_expired_tasks now).completed ↔
          e ∈ pool.completed ∧ now - e.2.1 < L) ∧
      (pool.purge_expired_tasks now).pending = pool.pending := by
  refine ⟨fun e => ?_, purge_pending pool now⟩
  rw [purge_completed_of_some hl]
  simp [List.mem_filter]

/-- Witness for C4: lifespan 5, purge at time 6 drops the entry completed
at time 0 (age 6) and keeps the entry completed at time 3 (age 3). -/
theorem purge_removes_exactly_expired_witness :
    ((1, (0, 10)) ∈
        (TaskPool.purge_expired_tasks (P := Progress)
          ⟨[], [(1, (0, 10)), (2, (3, 20))], some 5, 3⟩ 6).completed ↔
      ((1, (0, 10)) ∈ [((1 : Uuid), ((0 : Nat), (10 : Nat))), (2, (3, 20))] ∧ 6 - 0 < 5)) ∧
      (TaskPool.purge_expired_tasks (P := Progress)
          ⟨[], [(1, (0, 10)), (2, (3, 20))], some 5, 3⟩ 6).pending = [] :=
  ⟨(purge_removes_exactly_expired ⟨[], [(1, (0, 10)), (2, (3, 20))], some 5, 3⟩ 5 6 rfl).1 _,
   (purge_removes_exactly_expired ⟨[], [(1, (0, 10)), (2, (3, 20))], some 5, 3⟩ 5 6 rfl).2⟩

/-- C5: `complete` removes the handle's identifier from `pending`, runs
the purge policy, then inserts the timestamped result into `completed`,
in exactly that order; consequently, for every configured lifespan
(however small), the entry inserted by a `complete` call is present after
the call — it is never removed by that same call's purge. -/
theorem complete_purges_before_insert (pool : TaskPool V P) (h : Handle) (v : V)
    (now₁ now₂ : Nat) :
    pool.complete h v now₁ now₂ = completeSpec pool h v now₁ now₂ ∧
      mapLookup h.uuid (pool.complete h v now₁ now₂).completed = some (now₂, v) :=
  ⟨rfl, complete_completed_lookup_self pool h v now₁ now₂⟩

/-- C7: when the handle's identifier is bound in `pending` — the
guarantee of the ownership discipline — `progress` succeeds (the
abort branch for a missing entry is not taken) and advances exactly the
stored progress value in place, leaving every other pending entry, the
completed map, the lifespan and the id counter unchanged. -/
theorem progress_advances_in_place [Progressible P] (pool : TaskPool V P) (h : Handle) (p : P)
    (hp : mapLookup h.uuid pool.pending = some p) :
    ∃ pool' : TaskPool V P,
      pool.progress h = some pool' ∧
      mapLookup h.uuid pool'.pending = some (Progressible.progress p) ∧
      (∀ id : Uuid, id ≠ h.uuid → mapLookup id pool'.pending = mapLookup id pool.pending) ∧
      pool'.completed = pool.completed ∧ pool'.lifespan = pool.lifespan ∧
      pool'.nextId = pool.nextId := by
  have hprog : pool.progress h =
      some { pool with pending := mapInsert h.uuid (Progressible.progress p) pool.pending } := by
    unfold TaskPool.progress
    rw [hp]
  exact ⟨_, hprog, mapLookup_mapInsert_self _ _ _,
    fun id hid => mapLookup_mapInsert_ne hid _ _, rfl, rfl, rfl⟩

/-- Witness for C7 at a one-task registry. -/
theorem progress_advances_in_place_witness :
    ∃ pool' : TaskPool Nat Progress,
      TaskPool.progress ⟨[(4, ⟨2, 7⟩)], [], none, 5⟩ ⟨4⟩ = some pool' ∧
      mapLookup 4 pool'.pending = some (Progressible.progress (⟨2, 7⟩ : Progress)) ∧
      (∀ id : Uuid, id ≠ 4 → mapLookup id pool'.pending = mapLookup id [(4, (⟨2, 7⟩ : Progress))]) ∧
      pool'.completed = [] ∧ pool'.lifespan = none ∧ pool'.nextId = 5 :=
  progress_advances_in_place (V := Nat) (P := Progress)
    ⟨[(4, ⟨2, 7⟩)], [], none, 5⟩ ⟨4⟩ ⟨2, 7⟩ (by decide)

/-- C10: `complete` is total: for every handle — even one whose
identifier is absent from `pending` — it always inserts the timestamped
result, overwriting any previous completed entry bound to the same
identifier; the pending map only loses the handle's binding, and when
that binding is absent the pending map is left exactly as it was, with no
assertion. -/
theorem complete_total_overwrites (pool : TaskPool V P) (h : Handle) (v : V)
    (now₁ now₂ : Nat) :
    mapLookup h.uuid (pool.complete h v now₁ now₂).completed = some (now₂, v) ∧
      (pool.complete h v now₁ now₂).pending = mapErase h.uuid pool.pending ∧
      (mapLookup h.uuid pool.pending = none →
        (pool.complete h v now₁ now₂).pending = pool.pending) :=
  ⟨complete_completed_lookup_self pool h v now₁ now₂,
   complete_pending pool h v now₁ now₂,
   fun habs => (complete_pending pool h v now₁ now₂).trans (mapErase_eq_self habs)⟩

/-- Witness for C10: completing through a bogus handle on a registry
whose pending map does not contain its identifier (and whose completed
map already binds it) still succeeds, overwrites, and leaves pending
untouched. -/
theorem complete_total_overwrites_witness :
    mapLookup 3
        (TaskPool.complete (P := Progress) ⟨[(1, ⟨0, 2⟩)], [(3, (0, 8))], none, 4⟩
          ⟨3⟩ 9 10 11).completed = some (11, 9) ∧
      (TaskPool.complete (P := Progress) ⟨[(1, ⟨0, 2⟩)], [(3, (0, 8))], none, 4⟩
          ⟨3⟩ 9 10 11).pending = mapErase 3 [((1 : Uuid), (⟨0, 2⟩ : Progress))] ∧
      (mapLookup 3 [((1 : Uuid), (⟨0, 2⟩ : Progress))] = none →
        (TaskPool.complete (P := Progress) ⟨[(1, ⟨0, 2⟩)], [(3, (0, 8))], none, 4⟩
            ⟨3⟩ 9 10 11).pending = [(1, ⟨0, 2⟩)]) :=
  complete_total_overwrites (V := Nat) (P := Progress)
    ⟨[(1, ⟨0, 2⟩)], [(3, (0, 8))], none, 4⟩ ⟨3⟩ 9 10 11

/-- C2: in every reachable registry state an identifier is bound in at
most one of `pending` and `completed`, never both; and presence of an
identifier is preserved by `insert` and `progress` and is lost only
through a completed-side `retrieve` of that identifier or through the
expiry purge inside a `complete` call — so an inserted identifier stays
in exactly one map until consumed or purged. -/
theorem identifier_in_at_most_one_map [Progressible P] :
    (∀ pool : TaskPool V P, Reachable pool →
        ∀ id : Uuid,
          ¬(mapLookup id pool.pending ≠ none ∧ mapLookup id pool.completed ≠ none)) ∧
      (∀ (pool : TaskPool V P) (p : P) (id : Uuid),
        presentId id pool → presentId id (pool.insert p).2) ∧
      (∀ (pool pool' : TaskPool V P) (h : Handle) (id : Uuid),
        pool.progress h = some pool' → presentId id pool → presentId id pool') ∧
      (∀ (pool : TaskPool V P) (u id : Uuid), presentId id pool →
        presentId id (pool.retrieve u).2 ∨ (u = id ∧ mapLookup id pool.completed ≠ none)) ∧
      (∀ (pool : TaskPool V P) (h : Handle) (v : V) (n₁ n₂ : Nat) (id : Uuid),
        presentId id pool →
          presentId id (pool.complete h v n₁ n₂) ∨
            ∃ L t rv, pool.lifespan = some L ∧
              mapLookup id pool.completed = some (t, rv) ∧ L ≤ n₁ - t) := by
  refine ⟨?_, ?_, ?_, ?_, ?_⟩
  · rintro pool hr id ⟨hpnd, hcmp⟩
    obtain ⟨_, _, h3⟩ := inv_reachable hr
    obtain ⟨p₀, hp₀⟩ := Option.ne_none_iff_exists'.mp hpnd
    exact hcmp (h3 (id, p₀) (mapLookup_some_mem hp₀))
  · intro pool p id hpres
    rw [insert_snd]
    rcases hpres with hp | hc
    · left
      by_cases hid : id = pool.nextId
      · rw [hid, mapLookup_mapInsert_self]
        simp
      · rw [mapLookup_mapInsert_ne hid]
        exact hp
    · right
      exact hc
  · intro pool pool' h id hp hpres
    obtain ⟨p₀, hlk, rfl⟩ := progress_spec hp
    rcases hpres with hpd | hc
    · left
      by_cases hid : id = h.uuid
      · rw [hid, mapLookup_mapInsert_self]
        simp
      · rw [mapLookup_mapInsert_ne hid]
        exact hpd
    · right
      exact hc
  · intro pool u id hpres
    cases hu : mapLookup u pool.pending with
    | some p =>
      rw [retrieve_of_pending hu]
      exact Or.inl hpres
    | none =>
      cases hc : mapLookup u pool.completed with
      | none =>
        rw [retrieve_of_absent hu hc]
        exact Or.inl hpres
      | some f =>
        rw [retrieve_of_completed hu hc]
        rcases hpres with hpd | hcd
        · exact Or.inl (Or.inl hpd)
        · by_cases hid : u = id
          · refine Or.inr ⟨hid, ?_⟩
            rw [← hid, hc]
            simp
          · refine Or.inl (Or.inr ?_)
            rw [mapLookup_mapErase_ne fun hh => hid hh.symm]
            exact hcd
  · intro pool h v n₁ n₂ id hpres
    by_cases hid : id = h.uuid
    · refine Or.inl (Or.inr ?_)
      rw [hid, complete_completed_lookup_self]
      simp
    · rcases hpres with hpd | hcd
      · refine Or.inl (Or.inl ?_)
        rw [complete_pending, mapLookup_mapErase_ne hid]
        exact hpd
      · obtain ⟨⟨t, rv⟩, hf⟩ := Option.ne_none_iff_exists'.mp hcd
        cases hl : pool.lifespan with
        | none =>
          refine Or.inl (Or.inr ?_)
          have hpn : (({ pool with pending := mapErase h.uuid pool.pending }
                : TaskPool V P).purge_expired_tasks n₁).completed = pool.completed :=
            purge_completed_of_none
              (show ({ pool with pending := mapErase h.uuid pool.pending }
                : TaskPool V P).lifespan = none from hl) n₁
          rw [complete_completed, mapLookup_mapInsert_ne hid, hpn, hf]
          simp
        | some L =>
          by_cases hage : n₁ - t < L
          · refine Or.inl (Or.inr ?_)
            have hpn : (({ pool with pending := mapErase h.uuid pool.pending }
                  : TaskPool V P).purge_expired_tasks n₁).completed =
                pool.completed.filter (fun e => decide (n₁ - e.2.1 < L)) :=
              purge_completed_of_some
                (show ({ pool with pending := mapErase h.uuid pool.pending }
                  : TaskPool V P).lifespan = some L from hl) n₁
            rw [complete_completed, mapLookup_mapInsert_ne hid, hpn,
              mapLookup_filter_some hf (by simpa using hage)]
            simp
          · exact Or.inr ⟨L, t, rv, rfl, hf, by omega⟩

/-- Witness for C2: the empty registry is reachable, and no identifier is
bound in both of its maps. -/
theorem identifier_in_at_most_one_map_witness :
    ¬(mapLookup 0 (defaultPool Nat Progress).pending ≠ none ∧
        mapLookup 0 (defaultPool Nat Progress).completed ≠ none) :=
  (identifier_in_at_most_one_map (V := Nat) (P := Progress)).1 (defaultPool Nat Progress)
    (ReachableG.refl _) 0

/-- C6: in a well-formed registry with no configured lifespan, a
completed entry survives any operation sequence that never retrieves its
identifier: no purge and no other completion ever removes it, so it stays
retrievable with its timestamp and result unchanged. -/
theorem no_lifespan_never_expires [Progressible P] (pool pool' : TaskPool V P) (id : Uuid)
    (t : Nat) (v : V) (hinv : Inv pool) (hl : pool.lifespan = none)
    (hc : mapLookup id pool.completed = some (t, v))
    (hr : ReachableG (fun u => u ≠ id) pool pool') :
    mapLookup id pool'.completed = some (t, v) :=
  (expiry_trace_preserves hinv hl hc hr).2.2

/-- Witness for C6 at a registry holding one completed task. -/
theorem no_lifespan_never_expires_witness :
    mapLookup 5 (TaskPool.completed (V := Nat) (P := Progress)
      ⟨[], [(5, (0, 42))], none, 6⟩) = some (0, 42) :=
  no_lifespan_never_expires (V := Nat) (P := Progress)
    ⟨[], [(5, (0, 42))], none, 6⟩ ⟨[], [(5, (0, 42))], none, 6⟩
    5 0 42 (by decide) rfl rfl (ReachableG.refl _)

/-- C8: every identifier returned by `insert` equals the identifier the
returned handle is bound to, and identifiers returned by two `insert`
calls separated by an arbitrary operation sequence are distinct (the
128-bit random generator is modelled as a collision-free fresh supply,
as the spec directs). -/
theorem insert_identifiers_distinct [Progressible P] (pool₁ pool₂ : TaskPool V P) (p₁ p₂ : P)
    (hr : ReachableG (fun _ => True) (pool₁.insert p₁).2 pool₂) :
    (pool₁.insert p₁).1.1.uuid = (pool₁.insert p₁).1.2 ∧
      (pool₂.insert p₂).1.1.uuid = (pool₂.insert p₂).1.2 ∧
      (pool₁.insert p₁).1.2 ≠ (pool₂.insert p₂).1.2 := by
  refine ⟨rfl, rfl, ?_⟩
  have hmono := nextId_mono hr
  have h3 : (pool₁.insert p₁).2.nextId = pool₁.nextId + 1 := rfl
  rw [h3] at hmono
  show pool₁.nextId ≠ pool₂.nextId
  omega

/-- Witness for C8: two consecutive inserts into the empty registry
return identifiers 0 and 1, each bound to its handle. -/
theorem insert_identifiers_distinct_witness :
    ((defaultPool Nat Progress).insert ⟨0, 7⟩).1.1.uuid =
        ((defaultPool Nat Progress).insert ⟨0, 7⟩).1.2 ∧
      ((((defaultPool Nat Progress).insert ⟨0, 7⟩).2).insert ⟨0, 7⟩).1.1.uuid =
        ((((defaultPool Nat Progress).insert ⟨0, 7⟩).2).insert ⟨0, 7⟩).1.2 ∧
      ((defaultPool Nat Progress).insert ⟨0, 7⟩).1.2 ≠
        ((((defaultPool Nat Progress).insert ⟨0, 7⟩).2).insert ⟨0, 7⟩).1.2 :=
  insert_identifiers_distinct (defaultPool Nat Progress)
    (((defaultPool Nat Progress).insert ⟨0, 7⟩).2) ⟨0, 7⟩ ⟨0, 7⟩ (ReachableG.refl _)

/-- C9 as stated is false: it quantifies over every pending task with
current progress `p` and cap `total` and every `n ≥ total - p`, but when
the stored progress already exceeds the cap (progress 1, cap 0) the
bound `n ≥ total - p` admits `n = 0` (under both the truncated-natural
and the integer reading of the subtraction), and zero advance calls
leave the stored progress at 1 — not at the cap 0. -/
theorem advance_reaches_cap_counterexample :
    ((0 : Nat) ≥ 0 - 1) ∧ ((0 : Int) ≥ 0 - 1) ∧
      TaskPool.progressN (V := Nat) (P := Progress) ⟨[(0, ⟨1, 0⟩)], [], none, 1⟩ ⟨0⟩ 0 =
        some ⟨[(0, ⟨1, 0⟩)], [], none, 1⟩ ∧
      mapLookup 0 (TaskPool.pending (V := Nat) (P := Progress) ⟨[(0, ⟨1, 0⟩)], [], none, 1⟩) =
        some ⟨1, 0⟩ ∧
      (⟨1, 0⟩ : Progress).progress ≠ (⟨1, 0⟩ : Progress).total := by
  refine ⟨by decide, by decide, rfl, by decide, by decide⟩

/-- C9 (amended): for every pending task whose stored progress does not
exceed its cap, calling `advance_progress` at least the remaining
distance many times leaves the stored progress exactly at the cap, never
above it.  (The qualification "progress does not exceed the cap" is
forced by the counterexample above.) -/
theorem advance_reaches_cap (pool : TaskPool V Progress) (h : Handle) (pr : Progress)
    (n : Nat) (hp : mapLookup h.uuid pool.pending = some pr)
    (hle : pr.progress ≤ pr.total) (hn : pr.total - pr.progress ≤ n) :
    ∃ pool' : TaskPool V Progress, pool.progressN h n = some pool' ∧
      mapLookup h.uuid pool'.pending = some ⟨pr.total, pr.total⟩ := by
  obtain ⟨pool', h1, h2⟩ := progressN_lookup pool h pr n hp
  rw [progress_iterate_caps pr n hle hn] at h2
  exact ⟨pool', h1, h2⟩

/-- Witness for C9: a task at progress 1 of 3 advanced 2 times ends at
exactly 3 of 3. -/
theorem advance_reaches_cap_witness :
    ∃ pool' : TaskPool Nat Progress,
      TaskPool.progressN ⟨[(0, ⟨1, 3⟩)], [], none, 1⟩ ⟨0⟩ 2 = some pool' ∧
        mapLookup 0 pool'.pending = some ⟨3, 3⟩ :=
  advance_reaches_cap ⟨[(0, ⟨1, 3⟩)], [], none, 1⟩ ⟨0⟩ ⟨1, 3⟩ 2
    (by decide) (by decide) (by decide)

end Claims

end LongRunningTask
